import Mathlib

/-!
Verification of the bcryptx cost-tuning library against its specification.

The Go source (bcryptx.go) is shallowly embedded below.  Durations are Go
`time.Duration` values, i.e. 64-bit signed integers counting nanoseconds;
they are modelled as `Int` with explicit two's-complement wraparound
(`wrap64`) at the points where Go arithmetic can overflow.  The external
hashing primitive (golang.org/x/crypto/bcrypt) is modelled by two oracles:
`meas : Nat -> Except String Int`, giving the wall-clock duration of one
hash generation at a given cost during tuning (or the generation error), and
`pc : String -> Except String Int`, giving the cost encoded in a hash string
(bcrypt.Cost) or a parse error.  Go's `panic` inside `tune` is modelled as
an `Except.error` outcome that aborts the surrounding computation; the
mutex-protected fields `quickCost`/`strongCost` keep their previous values
in that case, because in the source the locked write at the end of `tune`
is never reached.
-/

/-- bcrypt.MinCost. -/
def minCost : Nat := 4

/-- bcrypt.MaxCost. -/
def maxCost : Nat := 31

/-- interpTime = time.Millisecond * 50, in nanoseconds. -/
def interpTime : Int := 50000000

/-- time.Millisecond * 10, in nanoseconds (the extrapolation quantum). -/
def tenMs : Int := 10000000

/-- GenQuickMaxTime = time.Millisecond * 500 (default quick budget). -/
def GenQuickMaxTime : Int := 500000000

/-- GenStrongMaxTime = time.Millisecond * 2000 (default strong budget). -/
def GenStrongMaxTime : Int := 2000000000

/-- GenConcurrency = 2 (default concurrency). -/
def GenConcurrency : Int := 2

/-- testStr, the fixed constant test password used by tune. -/
def testStr : String := "#!PnutBudr"

/-- Two's-complement wraparound of Go int64 arithmetic. -/
def wrap64 (x : Int) : Int := (x + 2 ^ 63) % 2 ^ 64 - 2 ^ 63

/-- Options holds values to be passed to New (field names as in the source). -/
structure Options where
  GenQuickMaxTime : Int
  GenStrongMaxTime : Int
  GenConcurrency : Int
deriving DecidableEq

/-- The two mutex-protected fields of Bcrypter that tune writes.  In the
source they are Go ints holding scan-loop indices in [0, maxCost], hence
naturals. -/
structure BcState where
  quickCost : Nat
  strongCost : Nat
deriving DecidableEq

/-- One iteration of the table-building loop of `tune` (bcryptx.go:150-171)
at cost index `i` with the table built so far.  `cts.getD (i-1) 0` is
`cts[i-1]` in the source (the loop invariant `cts.length = i` makes the
default unreachable). -/
def step (meas : Nat → Except String Int) (i : Nat) (cts : List Int) :
    Except String (List Int) :=
  if i < minCost then Except.ok (cts ++ [0])
  else if cts.getD (i - 1) 0 < interpTime then
    match meas i with
    | Except.error e => Except.error e
    | Except.ok d => Except.ok (cts ++ [d])
  else
    Except.ok (cts ++ [wrap64 (wrap64 (cts.getD (i - 1) 0 * 2) -
      Int.tmod (wrap64 (cts.getD (i - 1) 0 * 2)) tenMs)])

/-- The table-building loop of `tune`, with explicit fuel (the source loop
runs `i` from 1 to maxCost). -/
def tuneLoop (meas : Nat → Except String Int) :
    Nat → Nat → List Int → Except String (List Int)
  | 0, _, cts => Except.ok cts
  | fuel + 1, i, cts =>
    match step meas i cts with
    | Except.error e => Except.error e
    | Except.ok cts2 => tuneLoop meas fuel (i + 1) cts2

/-- The latency table built by a tuning run: `cts := []time.Duration{0}`
followed by the loop for i = 1..maxCost (bcryptx.go:149-171). -/
def buildTable (meas : Nat → Except String Int) : Except String (List Int) :=
  tuneLoop meas maxCost 1 [0]

/-- The scan loop of `tune` (bcryptx.go:173-180): one pass over the table,
updating the pair (qc, sc) from (0, 0). -/
def scanCosts (cts : List Int) (qMax sMax : Int) : Nat × Nat :=
  (List.range cts.length).foldl
    (fun p k =>
      (if p.1 = 0 ∧ cts.length > k + 1 ∧ cts.getD (k + 1) 0 > qMax then k else p.1,
       if p.2 = 0 ∧ cts.length > k + 1 ∧ cts.getD (k + 1) 0 > sMax then k else p.2))
    (0, 0)

/-- The scan loop restricted to a single budget (the two components of
`scanCosts` do not interact; see `scanCosts_eq`). -/
def scanCost (cts : List Int) (b : Int) : Nat :=
  (List.range cts.length).foldl
    (fun c k => if c = 0 ∧ cts.length > k + 1 ∧ cts.getD (k + 1) 0 > b then k else c) 0

/-- The single-budget scan cut off after the first `n` indices (proof
device for reasoning about the fold). -/
def scanPre (cts : List Int) (b : Int) (n : Nat) : Nat :=
  (List.range n).foldl
    (fun c k => if c = 0 ∧ cts.length > k + 1 ∧ cts.getD (k + 1) 0 > b then k else c) 0

/-- First index below `n` satisfying `p` (specification-side notion of
"the first qualifying index", used to compare with the scan loop). -/
def firstIdx (p : Nat → Bool) : Nat → Option Nat
  | 0 => none
  | n + 1 =>
    match firstIdx p n with
    | some m => some m
    | none => if p n then some n else none

/-- The first index k of the table with k+1 in range and table[k+1]
strictly above the budget — the specification's description of the scan. -/
def firstQual (cts : List Int) (b : Int) : Option Nat :=
  firstIdx (fun k => decide (k + 1 < cts.length ∧ cts.getD (k + 1) 0 > b)) cts.length

/-- The effect of `bc.tune` (bcryptx.go:145-186) on the protected pair
(quickCost, strongCost).  A measurement failure panics (bcryptx.go:161)
before the locked write at bcryptx.go:182-185, so on the error outcome the
pair keeps its prior value `st`. -/
def tuneEffect (meas : Nat → Except String Int) (opts : Options) (st : BcState) :
    BcState × Option String :=
  match buildTable meas with
  | Except.error e => (st, some e)
  | Except.ok cts =>
    (⟨(scanCosts cts opts.GenQuickMaxTime opts.GenStrongMaxTime).1,
      (scanCosts cts opts.GenQuickMaxTime opts.GenStrongMaxTime).2⟩, none)

/-- CurrentQuickCost (bcryptx.go:114-127): read quickCost; if it is the
zero sentinel, run Tune and re-read.  Returns the value handed to callers
together with the (possibly re-tuned) state; the error outcome is the
tuning panic, which in Go aborts the caller as well. -/
def currentQuickCost (meas : Nat → Except String Int) (opts : Options)
    (st : BcState) : Except String (Nat × BcState) :=
  if st.quickCost = 0 then
    match tuneEffect meas opts st with
    | (_, some e) => Except.error e
    | (st2, none) => Except.ok (st2.quickCost, st2)
  else Except.ok (st.quickCost, st)

/-- CurrentStrongCost (bcryptx.go:129-142), symmetric to
`currentQuickCost`. -/
def currentStrongCost (meas : Nat → Except String Int) (opts : Options)
    (st : BcState) : Except String (Nat × BcState) :=
  if st.strongCost = 0 then
    match tuneEffect meas opts st with
    | (_, some e) => Except.error e
    | (st2, none) => Except.ok (st2.strongCost, st2)
  else Except.ok (st.strongCost, st)

/-- The cost value that GenQuickFromPass (bcryptx.go:72-78) passes as the
cost argument of bcrypt.GenerateFromPassword. -/
def genQuickCostUsed (meas : Nat → Except String Int) (opts : Options)
    (st : BcState) : Except String Nat :=
  match currentQuickCost meas opts st with
  | Except.error e => Except.error e
  | Except.ok (c, _) => Except.ok c

/-- The cost value that GenStrongFromPass (bcryptx.go:81-87) passes to
bcrypt.GenerateFromPassword. -/
def genStrongCostUsed (meas : Nat → Except String Int) (opts : Options)
    (st : BcState) : Except String Nat :=
  match currentStrongCost meas opts st with
  | Except.error e => Except.error e
  | Except.ok (c, _) => Except.ok c

/-- The error outcomes of testHash: a bcrypt.Cost error propagated
verbatim, or the distinct package-level ErrLowCost value. -/
inductive TErr where
  | primitive : String → TErr
  | low : TErr
deriving DecidableEq

/-- testHash (bcryptx.go:190-199): extract the hash cost via bcrypt.Cost
(oracle `pc`); propagate its error; return ErrLowCost when the extracted
cost is below the provided cost; succeed otherwise. -/
def testHash (pc : String → Except String Int) (hash : String) (cost : Nat) :
    Except TErr Unit :=
  match pc hash with
  | Except.error e => Except.error (TErr.primitive e)
  | Except.ok c => if c < (cost : Int) then Except.error TErr.low else Except.ok ()

/-- IsCostQuick (bcryptx.go:103-106): testHash at the current quick cost. -/
def isCostQuick (pc : String → Except String Int)
    (meas : Nat → Except String Int) (opts : Options) (st : BcState)
    (hash : String) : Except String (Except TErr Unit) :=
  match currentQuickCost meas opts st with
  | Except.error e => Except.error e
  | Except.ok (c, _) => Except.ok (testHash pc hash c)

/-- IsCostStrong (bcryptx.go:109-112): testHash at the current strong cost. -/
def isCostStrong (pc : String → Except String Int)
    (meas : Nat → Except String Int) (opts : Options) (st : BcState)
    (hash : String) : Except String (Except TErr Unit) :=
  match currentStrongCost meas opts st with
  | Except.error e => Except.error e
  | Except.ok (c, _) => Except.ok (testHash pc hash c)

/-- Modelled from the spec: the repository's ValidateHash operation.  Its
implementation is not under src/ (only the repository's README usage block
declares it and the newer test file exercises it); per the spec it
"attempts to extract cost; reports a malformed-hash error if extraction
fails, otherwise succeeds regardless of the cost value". -/
def validateHash (pc : String → Except String Int) (hash : String) :
    Except String Unit :=
  match pc hash with
  | Except.error e => Except.error e
  | Except.ok _ => Except.ok ()

/-- The three conditional default writes of New (bcryptx.go:54-63),
performed in place on the caller's Options value. -/
def setDefaults (o : Options) : Options :=
  let o1 := if o.GenQuickMaxTime = 0 then { o with GenQuickMaxTime := GenQuickMaxTime } else o
  let o2 := if o1.GenStrongMaxTime = 0 then { o1 with GenStrongMaxTime := GenStrongMaxTime } else o1
  if o2.GenConcurrency = 0 then { o2 with GenConcurrency := GenConcurrency } else o2

/-- The part of the Bcrypter returned by New that is relevant to aliasing:
the pointer to the Options object, plus the two zero-initialised costs. -/
structure BcrypterRef where
  optionsPtr : Nat
  quickCost : Nat
  strongCost : Nat
deriving DecidableEq

/-- New (bcryptx.go:49-69) under an explicit heap of Options objects
(pointers are naturals).  A nil argument allocates a fresh zero Options at
`fresh`; otherwise the caller's object at `p` is updated in place, and the
returned Bcrypter aliases it through its exported Options field. -/
def newGo (h : Nat → Options) (optsPtr : Option Nat) (fresh : Nat) :
    (Nat → Options) × BcrypterRef :=
  let p := optsPtr.getD fresh
  let h1 := match optsPtr with
    | none => Function.update h fresh ⟨0, 0, 0⟩
    | some _ => h
  let h2 := Function.update h1 p (setDefaults (h1 p))
  (h2, ⟨p, 0, 0⟩)

/-- The per-index shape of the latency table, as computed by the source's
loop body: zero below minCost, a direct measurement while the previous
entry is under the interpolation threshold, and otherwise the doubled
previous entry truncated to the 10ms quantum (with int64 semantics). -/
def shapeAt (meas : Nat → Except String Int) (cts : List Int) (j : Nat) : Prop :=
  (j < minCost → cts.getD j 0 = 0) ∧
  (minCost ≤ j → cts.getD (j - 1) 0 < interpTime →
    meas j = Except.ok (cts.getD j 0)) ∧
  (minCost ≤ j → ¬ cts.getD (j - 1) 0 < interpTime →
    cts.getD j 0 =
      wrap64 (wrap64 (cts.getD (j - 1) 0 * 2) -
        Int.tmod (wrap64 (cts.getD (j - 1) 0 * 2)) tenMs))

/-- Concrete measurement oracle: every direct measurement takes 60ms. -/
def meas0 : Nat → Except String Int := fun _ => Except.ok 60000000

/-- Concrete measurement oracle succeeding (1ms) at costs up to 5 and
failing from cost 6 on: a tuning run measures costs 4 and 5 successfully
and fails at its third direct measurement. -/
def measMixed : Nat → Except String Int := fun i =>
  if i ≤ 5 then Except.ok 1000000 else Except.error "bcrypt failure"

/-- The latency table produced by a tuning run with `meas0`. -/
def table0 : List Int := (buildTable meas0).toOption.getD []

/-- Concrete cost-extraction oracle: one well-formed hash of cost 10,
everything else malformed. -/
def pc0 : String → Except String Int := fun h =>
  if h = "hash10" then Except.ok 10 else Except.error "malformed hash"

/-- Concrete heap for the New theorems: every pointer holds an Options
value with a zero quick budget, strong budget 7, zero concurrency. -/
def heap0 : Nat → Options := fun _ => ⟨0, 7, 0⟩

deriving instance DecidableEq for Except

theorem getD_append_lt (l : List Int) (a : Int) (j : Nat) (h : j < l.length) :
    (l ++ [a]).getD j 0 = l.getD j 0 := by
  simp [List.getD, List.getElem?_append, h]

theorem getD_append_len (l : List Int) (a : Int) :
    (l ++ [a]).getD l.length 0 = a := by
  simp [List.getD]

theorem wrap64_eq (x : Int) (h1 : -(2 ^ 63) ≤ x) (h2 : x < 2 ^ 63) :
    wrap64 x = x := by
  unfold wrap64
  have : (x + 2 ^ 63) % 2 ^ 64 = x + 2 ^ 63 :=
    Int.emod_eq_of_lt (by omega) (by omega)
  omega

theorem floor_quantum_nonneg (t m : Int) (ht : 0 ≤ t) (hm : 0 < m) :
    0 ≤ t - t % m ∧ t - t % m ≤ t ∧ (t - t % m) % m = 0 ∧ t - (t - t % m) < m := by
  have h1 : 0 ≤ t % m := Int.emod_nonneg t (by omega)
  have h2 := Int.ediv_add_emod t m
  have h3 : 0 ≤ t / m := Int.ediv_nonneg ht (le_of_lt hm)
  have h4 : 0 ≤ m * (t / m) := mul_nonneg (le_of_lt hm) h3
  have h5 : t % m < m := Int.emod_lt_of_pos t hm
  refine ⟨by omega, by omega, ?_, by omega⟩
  have h6 : t - t % m = m * (t / m) := by omega
  rw [h6]
  exact Int.mul_emod_right m (t / m)

theorem extrap_reduce (x : Int) (h0 : 0 ≤ x) (h1 : x ≤ 2 ^ 61) :
    wrap64 (wrap64 (x * 2) - Int.tmod (wrap64 (x * 2)) tenMs) =
      x * 2 - (x * 2) % tenMs ∧
    0 ≤ x * 2 - (x * 2) % tenMs ∧ x * 2 - (x * 2) % tenMs ≤ x * 2 := by
  have hw : wrap64 (x * 2) = x * 2 := wrap64_eq _ (by omega) (by omega)
  rw [hw]
  have htm : Int.tmod (x * 2) tenMs = (x * 2) % tenMs :=
    Int.tmod_eq_emod (by omega) (by norm_num [tenMs])
  rw [htm]
  have hq := floor_quantum_nonneg (x * 2) tenMs (by omega) (by norm_num [tenMs])
  have hw2 : wrap64 (x * 2 - (x * 2) % tenMs) - (x * 2 - (x * 2) % tenMs) = 0 := by
    rw [wrap64_eq _ (by omega) (by omega)]; omega
  exact ⟨by omega, hq.1, hq.2.1⟩

theorem scanPre_succ (cts : List Int) (b : Int) (n : Nat) :
    scanPre cts b (n + 1) =
      if scanPre cts b n = 0 ∧ cts.length > n + 1 ∧ cts.getD (n + 1) 0 > b then n
      else scanPre cts b n := by
  unfold scanPre
  rw [List.range_succ, List.foldl_append]
  rfl

theorem scanPre_spec (cts : List Int) (b : Int) : ∀ n : Nat,
    (scanPre cts b n = 0 ∧
      ∀ k, 0 < k → k < n → ¬(cts.length > k + 1 ∧ cts.getD (k + 1) 0 > b)) ∨
    (0 < scanPre cts b n ∧ scanPre cts b n < n ∧
      (cts.length > scanPre cts b n + 1 ∧ cts.getD (scanPre cts b n + 1) 0 > b) ∧
      ∀ k, 0 < k → k < scanPre cts b n →
        ¬(cts.length > k + 1 ∧ cts.getD (k + 1) 0 > b)) := by
  intro n
  induction n with
  | zero => exact Or.inl ⟨rfl, by omega⟩
  | succ n ih =>
    rw [scanPre_succ]
    rcases ih with ⟨h0, hmin⟩ | ⟨hpos, hlt, hQ, hmin⟩
    · rw [h0]
      by_cases hq : cts.length > n + 1 ∧ cts.getD (n + 1) 0 > b
      · rw [if_pos ⟨rfl, hq⟩]
        by_cases hn : n = 0
        · subst hn
          exact Or.inl ⟨rfl, fun k hk1 hk2 => absurd (by omega : k < 0 + 1 ∧ 0 < k) (by omega)⟩
        · exact Or.inr ⟨Nat.pos_of_ne_zero hn, Nat.lt_succ_self n, hq, hmin⟩
      · rw [if_neg fun hcon => hq hcon.2]
        refine Or.inl ⟨rfl, fun k hk1 hk2 => ?_⟩
        rcases Nat.lt_succ_iff_lt_or_eq.mp hk2 with h | h
        · exact hmin k hk1 h
        · subst h; exact hq
    · rw [if_neg fun hcon => absurd hcon.1 (by omega)]
      exact Or.inr ⟨hpos, Nat.lt_succ_of_lt hlt, hQ, hmin⟩

theorem scanCost_eq_pre (cts : List Int) (b : Int) :
    scanCost cts b = scanPre cts b cts.length := rfl

theorem firstIdx_spec (p : Nat → Bool) : ∀ n : Nat,
    (firstIdx p n = none ∧ ∀ k, k < n → ¬ p k = true) ∨
    (∃ m, firstIdx p n = some m ∧ m < n ∧ p m = true ∧
      ∀ k, k < m → ¬ p k = true) := by
  intro n
  induction n with
  | zero => exact Or.inl ⟨rfl, by omega⟩
  | succ n ih =>
    rcases ih with ⟨hnone, hmin⟩ | ⟨m, hsome, hlt, hp, hmin⟩
    · by_cases hp : p n = true
      · refine Or.inr ⟨n, ?_, Nat.lt_succ_self n, hp, hmin⟩
        simp [firstIdx, hnone, hp]
      · refine Or.inl ⟨by simp [firstIdx, hnone, hp], fun k hk => ?_⟩
        rcases Nat.lt_succ_iff_lt_or_eq.mp hk with h | h
        · exact hmin k h
        · subst h; exact hp
    · refine Or.inr ⟨m, ?_, Nat.lt_succ_of_lt hlt, hp, hmin⟩
      simp [firstIdx, hsome]

theorem foldl_pair_split (f g : Nat → Nat → Nat) (l : List Nat) :
    ∀ a b : Nat,
      l.foldl (fun p k => (f p.1 k, g p.2 k)) (a, b) = (l.foldl f a, l.foldl g b) := by
  induction l with
  | nil => intro a b; rfl
  | cons x xs ih => intro a b; simpa using ih (f a x) (g b x)

theorem scanCosts_eq (cts : List Int) (q s : Int) :
    scanCosts cts q s = (scanCost cts q, scanCost cts s) := by
  unfold scanCosts scanCost
  exact foldl_pair_split
    (fun c k => if c = 0 ∧ cts.length > k + 1 ∧ cts.getD (k + 1) 0 > q then k else c)
    (fun c k => if c = 0 ∧ cts.length > k + 1 ∧ cts.getD (k + 1) 0 > s then k else c)
    (List.range cts.length) 0 0

theorem tuneLoop_shape (meas : Nat → Except String Int) :
    ∀ (fuel i : Nat) (acc cts : List Int),
      tuneLoop meas fuel i acc = Except.ok cts →
      acc.length = i → 1 ≤ i →
      cts.length = i + fuel ∧
      (∀ j, j < i → cts.getD j 0 = acc.getD j 0) ∧
      (∀ j, i ≤ j → j < i + fuel → shapeAt meas cts j) := by
  intro fuel
  induction fuel with
  | zero =>
    intro i acc cts hok hlen _
    have hac : acc = cts := by simpa [tuneLoop] using hok
    subst hac
    exact ⟨by omega, fun j _ => rfl, fun j h1 h2 => absurd h2 (by omega)⟩
  | succ fuel ih =>
    intro i acc cts hok hlen hi
    unfold tuneLoop at hok
    cases hstep : step meas i acc with
    | error e => rw [hstep] at hok; exact absurd hok (by simp)
    | ok acc2 =>
      rw [hstep] at hok
      by_cases h1 : i < minCost
      · unfold step at hstep
        rw [if_pos h1] at hstep
        have hacc2 : acc2 = acc ++ [0] := (Except.ok.inj hstep).symm
        subst hacc2
        have hlen2 : (acc ++ [0]).length = i + 1 := by simp [hlen]
        obtain ⟨hL, hPre, hSh⟩ := ih (i + 1) (acc ++ [0]) cts hok hlen2 (by omega)
        refine ⟨by omega, ?_, ?_⟩
        · intro j hj
          rw [hPre j (by omega), getD_append_lt acc 0 j (by omega)]
        · intro j hij hjf
          by_cases hji : j = i
          · subst hji
            have hcur : cts.getD j 0 = 0 := by
              rw [hPre j (by omega)]
              have h := getD_append_len acc 0
              rw [hlen] at h
              exact h
            exact ⟨fun _ => hcur, fun hm => absurd hm (by omega),
              fun hm _ => absurd hm (by omega)⟩
          · exact hSh j (by omega) (by omega)
      · by_cases h2 : acc.getD (i - 1) 0 < interpTime
        · unfold step at hstep
          rw [if_neg h1, if_pos h2] at hstep
          cases hm : meas i with
          | error e =>
            rw [hm] at hstep
            exact Except.noConfusion
              (show (Except.error e : Except String (List Int)) = Except.ok acc2 from hstep)
          | ok d =>
            rw [hm] at hstep
            have hstep2 : Except.ok (acc ++ [d]) = Except.ok acc2 := hstep
            have hacc2 : acc2 = acc ++ [d] := (Except.ok.inj hstep2).symm
            subst hacc2
            have hlen2 : (acc ++ [d]).length = i + 1 := by simp [hlen]
            obtain ⟨hL, hPre, hSh⟩ := ih (i + 1) (acc ++ [d]) cts hok hlen2 (by omega)
            refine ⟨by omega, ?_, ?_⟩
            · intro j hj
              rw [hPre j (by omega), getD_append_lt acc d j (by omega)]
            · intro j hij hjf
              by_cases hji : j = i
              · subst hji
                have hcur : cts.getD j 0 = d := by
                  rw [hPre j (by omega)]
                  have h := getD_append_len acc d
                  rw [hlen] at h
                  exact h
                have hprev : cts.getD (j - 1) 0 = acc.getD (j - 1) 0 := by
                  rw [hPre (j - 1) (by omega), getD_append_lt acc d (j - 1) (by omega)]
                refine ⟨fun hc => absurd hc h1, fun _ _ => by rw [hcur]; exact hm,
                  fun _ hnp => absurd (by rw [hprev]; exact h2) hnp⟩
              · exact hSh j (by omega) (by omega)
        · unfold step at hstep
          rw [if_neg h1, if_neg h2] at hstep
          have hacc2 : acc2 = acc ++
              [wrap64 (wrap64 (acc.getD (i - 1) 0 * 2) -
                Int.tmod (wrap64 (acc.getD (i - 1) 0 * 2)) tenMs)] :=
            (Except.ok.inj hstep).symm
          subst hacc2
          have hlen2 : (acc ++ [wrap64 (wrap64 (acc.getD (i - 1) 0 * 2) -
              Int.tmod (wrap64 (acc.getD (i - 1) 0 * 2)) tenMs)]).length = i + 1 := by
            simp [hlen]
          obtain ⟨hL, hPre, hSh⟩ := ih (i + 1) _ cts hok hlen2 (by omega)
          refine ⟨by omega, ?_, ?_⟩
          · intro j hj
            rw [hPre j (by omega), getD_append_lt _ _ j (by omega)]
          · intro j hij hjf
            by_cases hji : j = i
            · subst hji
              have hcur : cts.getD j 0 = wrap64 (wrap64 (acc.getD (j - 1) 0 * 2) -
                  Int.tmod (wrap64 (acc.getD (j - 1) 0 * 2)) tenMs) := by
                rw [hPre j (by omega)]
                have h := getD_append_len acc (wrap64 (wrap64 (acc.getD (j - 1) 0 * 2) -
                  Int.tmod (wrap64 (acc.getD (j - 1) 0 * 2)) tenMs))
                rw [hlen] at h
                exact h
              have hprev : cts.getD (j - 1) 0 = acc.getD (j - 1) 0 := by
                rw [hPre (j - 1) (by omega), getD_append_lt _ _ (j - 1) (by omega)]
              refine ⟨fun hc => absurd hc h1,
                fun _ hp => absurd (by rw [← hprev]; exact hp) h2,
                fun _ _ => by rw [hcur, hprev]⟩
            · exact hSh j (by omega) (by omega)

theorem buildTable_shape (meas : Nat → Except String Int) (cts : List Int)
    (hok : buildTable meas = Except.ok cts) :
    cts.length = maxCost + 1 ∧ cts.getD 0 0 = 0 ∧
    ∀ j, 1 ≤ j → j ≤ maxCost → shapeAt meas cts j := by
  obtain ⟨hL, hPre, hSh⟩ :=
    tuneLoop_shape meas maxCost 1 [0] cts hok rfl (le_refl 1)
  refine ⟨by omega, ?_, fun j h1 h2 => hSh j h1 (by omega)⟩
  simpa using hPre 0 one_pos

theorem table_bounds (meas : Nat → Except String Int) (cts : List Int)
    (hb : ∀ i d, meas i = Except.ok d → 0 ≤ d ∧ d ≤ 2 ^ 35)
    (hok : buildTable meas = Except.ok cts) :
    ∀ j, j ≤ maxCost →
      0 ≤ cts.getD j 0 ∧ cts.getD j 0 ≤ 2 ^ 35 * 2 ^ (j - minCost) ∧
      (j < minCost → cts.getD j 0 = 0) := by
  obtain ⟨hL, h0, hSh⟩ := buildTable_shape meas cts hok
  intro j
  induction j using Nat.strong_induction_on with
  | _ j ih =>
    intro hj
    by_cases hj0 : j = 0
    · subst hj0
      rw [h0]
      exact ⟨le_refl 0, by positivity, fun _ => rfl⟩
    · have hj1 : 1 ≤ j := by omega
      obtain ⟨hz, hmeas, hext⟩ := hSh j hj1 hj
      by_cases hjm : j < minCost
      · rw [hz hjm]
        exact ⟨le_refl 0, by positivity, fun _ => rfl⟩
      · push_neg at hjm
        by_cases hp : cts.getD (j - 1) 0 < interpTime
        · have hm := hmeas hjm hp
          have hd := hb j _ hm
          refine ⟨hd.1, ?_, fun hc => absurd hc (by omega)⟩
          calc cts.getD j 0 ≤ 2 ^ 35 := hd.2
            _ ≤ 2 ^ 35 * 2 ^ (j - minCost) :=
              le_mul_of_one_le_right (by positivity) (one_le_pow₀ (by norm_num))
        · have hple : interpTime ≤ cts.getD (j - 1) 0 := not_lt.mp hp
          have hprev := ih (j - 1) (by omega) (by omega)
          have hjm4 : 4 ≤ j := hjm
          have hj31 : j ≤ 31 := hj
          have hj5 : 5 ≤ j := by
            rcases Nat.lt_or_ge j 5 with h5 | h5
            · exfalso
              have hz3 : cts.getD (j - 1) 0 = 0 :=
                hprev.2.2 (show j - 1 < minCost by simp only [minCost]; omega)
              rw [hz3] at hple
              norm_num [interpTime] at hple
            · exact h5
          have hbound : cts.getD (j - 1) 0 ≤ 2 ^ 61 := by
            have h26 : (2 : Int) ^ (j - 1 - minCost) ≤ 2 ^ 26 := by
              apply pow_le_pow_right₀ (by norm_num)
              simp only [minCost]; omega
            calc cts.getD (j - 1) 0 ≤ 2 ^ 35 * 2 ^ (j - 1 - minCost) := hprev.2.1
              _ ≤ 2 ^ 35 * 2 ^ 26 := by
                exact mul_le_mul_of_nonneg_left h26 (by positivity)
              _ ≤ 2 ^ 61 := by norm_num
          have hred := extrap_reduce (cts.getD (j - 1) 0) hprev.1 hbound
          have hval := hext hjm hp
          rw [hval, hred.1]
          have hdouble : cts.getD (j - 1) 0 * 2 ≤ 2 ^ 35 * 2 ^ (j - minCost) := by
            have hpow : (2 : Int) ^ (j - minCost) = 2 ^ (j - 1 - minCost) * 2 := by
              rw [← pow_succ]
              congr 1
              simp only [minCost]; omega
            rw [hpow]
            linarith [hprev.2.1]
          exact ⟨hred.2.1, le_trans hred.2.2 hdouble, fun hc => absurd hc (by omega)⟩

theorem step_err (meas : Nat → Except String Int) (i : Nat) (acc : List Int)
    (e : String) (he : step meas i acc = Except.error e) :
    ¬ i < minCost ∧ meas i = Except.error e := by
  unfold step at he
  by_cases h1 : i < minCost
  · rw [if_pos h1] at he
    exact absurd he (by simp)
  · rw [if_neg h1] at he
    by_cases h2 : acc.getD (i - 1) 0 < interpTime
    · rw [if_pos h2] at he
      cases hm : meas i with
      | error e2 =>
        rw [hm] at he
        have he2 : (Except.error e2 : Except String (List Int)) = Except.error e := he
        have he3 : e2 = e := Except.error.inj he2
        refine ⟨h1, ?_⟩
        rw [he3]
      | ok d =>
        rw [hm] at he
        exact absurd (show (Except.ok (acc ++ [d]) : Except String (List Int)) =
          Except.error e from he) (by simp)
    · rw [if_neg h2] at he
      exact absurd he (by simp)

theorem tuneLoop_err (meas : Nat → Except String Int) :
    ∀ (fuel i : Nat) (acc : List Int) (e : String),
      tuneLoop meas fuel i acc = Except.error e →
      ∃ j, i ≤ j ∧ j < i + fuel ∧ ¬ j < minCost ∧ meas j = Except.error e := by
  intro fuel
  induction fuel with
  | zero =>
    intro i acc e he
    exact absurd (show (Except.ok acc : Except String (List Int)) =
      Except.error e from he) (by simp)
  | succ fuel ih =>
    intro i acc e he
    unfold tuneLoop at he
    cases hstep : step meas i acc with
    | error e2 =>
      rw [hstep] at he
      have he2 : (Except.error e2 : Except String (List Int)) = Except.error e := he
      have he3 : e2 = e := Except.error.inj he2
      subst he3
      obtain ⟨h1, hm⟩ := step_err meas i acc e2 hstep
      exact ⟨i, le_refl i, by omega, h1, hm⟩
    | ok acc2 =>
      rw [hstep] at he
      obtain ⟨j, hj1, hj2, hj3, hj4⟩ := ih (i + 1) acc2 e he
      exact ⟨j, by omega, by omega, hj3, hj4⟩

theorem buildTable_err (meas : Nat → Except String Int) (e : String)
    (he : buildTable meas = Except.error e) :
    ∃ j, minCost ≤ j ∧ j ≤ maxCost ∧ meas j = Except.error e := by
  obtain ⟨j, hj1, hj2, hj3, hj4⟩ := tuneLoop_err meas maxCost 1 [0] e he
  exact ⟨j, Nat.le_of_not_lt hj3, by omega, hj4⟩

theorem prev_entry_bound (meas : Nat → Except String Int) (cts : List Int)
    (hb : ∀ i d, meas i = Except.ok d → 0 ≤ d ∧ d ≤ 2 ^ 35)
    (hok : buildTable meas = Except.ok cts)
    (j : Nat) (hjm : minCost ≤ j) (hj : j ≤ maxCost)
    (hple : interpTime ≤ cts.getD (j - 1) 0) :
    0 ≤ cts.getD (j - 1) 0 ∧ cts.getD (j - 1) 0 ≤ 2 ^ 61 := by
  have hprev := table_bounds meas cts hb hok (j - 1) (by omega)
  have hjm4 : 4 ≤ j := hjm
  have hj31 : j ≤ 31 := hj
  have hj5 : 5 ≤ j := by
    rcases Nat.lt_or_ge j 5 with h5 | h5
    · exfalso
      have hz3 : cts.getD (j - 1) 0 = 0 :=
        hprev.2.2 (show j - 1 < minCost by simp only [minCost]; omega)
      rw [hz3] at hple
      norm_num [interpTime] at hple
    · exact h5
  refine ⟨hprev.1, ?_⟩
  have h26 : (2 : Int) ^ (j - 1 - minCost) ≤ 2 ^ 26 := by
    apply pow_le_pow_right₀ (by norm_num)
    simp only [minCost]; omega
  calc cts.getD (j - 1) 0 ≤ 2 ^ 35 * 2 ^ (j - 1 - minCost) := hprev.2.1
    _ ≤ 2 ^ 35 * 2 ^ 26 := mul_le_mul_of_nonneg_left h26 (by positivity)
    _ ≤ 2 ^ 61 := by norm_num

/-- C1: on every tuning run, the latency table has entries indexed
0..maxCost; entry 0 is zero; every entry at a cost below minCost is zero;
every (remaining) entry whose previous entry is below the 50ms
interpolation threshold is the direct wall-clock measurement of one hash
generation at that cost; every other entry is twice the previous entry
truncated down (floor) to the nearest 10ms boundary — i.e. the greatest
multiple of 10ms not exceeding the doubled previous entry.  The clauses
apply in the source's if/else-if/else order.  The measurement-bound
hypothesis (each measurement in [0, 2^35] ns, about 34 seconds) keeps the
Go int64 arithmetic away from its overturn point, where the arithmetic
facts would degenerate. -/
theorem tuning_table_shape (meas : Nat → Except String Int) (cts : List Int)
    (hb : ∀ i d, meas i = Except.ok d → 0 ≤ d ∧ d ≤ 2 ^ 35)
    (hok : buildTable meas = Except.ok cts) :
    cts.length = maxCost + 1 ∧
    cts.getD 0 0 = 0 ∧
    (∀ j, 1 ≤ j → j < minCost → cts.getD j 0 = 0) ∧
    (∀ j, minCost ≤ j → j ≤ maxCost → cts.getD (j - 1) 0 < interpTime →
      meas j = Except.ok (cts.getD j 0)) ∧
    (∀ j, minCost ≤ j → j ≤ maxCost → ¬ cts.getD (j - 1) 0 < interpTime →
      cts.getD j 0 = cts.getD (j - 1) 0 * 2 - cts.getD (j - 1) 0 * 2 % tenMs ∧
      cts.getD j 0 % tenMs = 0 ∧
      cts.getD j 0 ≤ cts.getD (j - 1) 0 * 2 ∧
      cts.getD (j - 1) 0 * 2 - cts.getD j 0 < tenMs) := by
  obtain ⟨hL, h0, hSh⟩ := buildTable_shape meas cts hok
  refine ⟨hL, h0, ?_, ?_, ?_⟩
  · intro j h1 h2
    exact (hSh j h1 (by simp only [minCost, maxCost] at *; omega)).1 h2
  · intro j h1 h2 h3
    exact (hSh j (by simp only [minCost] at *; omega) h2).2.1 h1 h3
  · intro j h1 h2 h3
    have hval := (hSh j (by simp only [minCost] at *; omega) h2).2.2 h1 h3
    have hple : interpTime ≤ cts.getD (j - 1) 0 := not_lt.mp h3
    have hpb := prev_entry_bound meas cts hb hok j h1 h2 hple
    have hred := extrap_reduce (cts.getD (j - 1) 0) hpb.1 hpb.2
    rw [hval, hred.1]
    have hq := floor_quantum_nonneg (cts.getD (j - 1) 0 * 2) tenMs
      (by linarith [hpb.1]) (by norm_num [tenMs])
    exact ⟨rfl, hq.2.2.1, hq.2.1, hq.2.2.2⟩

/-- Witness for C1: the concrete oracle meas0 (every measurement 60ms)
satisfies the hypotheses, and the claim's conclusion holds of its table. -/
theorem tuning_table_shape_witness :
    (∀ i d, meas0 i = Except.ok d → 0 ≤ d ∧ d ≤ 2 ^ 35) ∧
    buildTable meas0 = Except.ok table0 ∧
    (table0.length = maxCost + 1 ∧
    table0.getD 0 0 = 0 ∧
    (∀ j, 1 ≤ j → j < minCost → table0.getD j 0 = 0) ∧
    (∀ j, minCost ≤ j → j ≤ maxCost → table0.getD (j - 1) 0 < interpTime →
      meas0 j = Except.ok (table0.getD j 0)) ∧
    (∀ j, minCost ≤ j → j ≤ maxCost → ¬ table0.getD (j - 1) 0 < interpTime →
      table0.getD j 0 = table0.getD (j - 1) 0 * 2 - table0.getD (j - 1) 0 * 2 % tenMs ∧
      table0.getD j 0 % tenMs = 0 ∧
      table0.getD j 0 ≤ table0.getD (j - 1) 0 * 2 ∧
      table0.getD (j - 1) 0 * 2 - table0.getD j 0 < tenMs)) := by
  have hb : ∀ i d, meas0 i = Except.ok d → 0 ≤ d ∧ d ≤ 2 ^ 35 := by
    intro i d hd
    simp only [meas0] at hd
    injection hd with h
    subst h
    norm_num
  have hok : buildTable meas0 = Except.ok table0 := by decide
  exact ⟨hb, hok, tuning_table_shape meas0 table0 hb hok⟩

theorem scanCost_eq_firstQual (meas : Nat → Except String Int) (cts : List Int)
    (b : Int) (hok : buildTable meas = Except.ok cts) (hb : 0 ≤ b) :
    scanCost cts b = (firstQual cts b).getD 0 := by
  obtain ⟨hL, h0, hSh⟩ := buildTable_shape meas cts hok
  have h1z : cts.getD 1 0 = 0 :=
    (hSh 1 (le_refl 1) (by simp only [maxCost]; omega)).1 (by simp only [minCost]; omega)
  have hnq0 : ¬ (0 + 1 < cts.length ∧ cts.getD (0 + 1) 0 > b) := by
    rintro ⟨hlen1, hgt1⟩
    have hgt1a : cts.getD 1 0 > b := hgt1
    rw [h1z] at hgt1a
    omega
  rw [scanCost_eq_pre]
  unfold firstQual
  rcases scanPre_spec cts b cts.length with ⟨hz, hmin⟩ | ⟨hpos, hlt, hQ, hmin⟩ <;>
    rcases firstIdx_spec
      (fun k => decide (k + 1 < cts.length ∧ cts.getD (k + 1) 0 > b))
      cts.length with ⟨hfn, hfmin⟩ | ⟨m, hfs, hflt, hfp, hfmin⟩
  · rw [hz, hfn]; rfl
  · exfalso
    have hQm : m + 1 < cts.length ∧ cts.getD (m + 1) 0 > b := by
      simpa using hfp
    by_cases hm0 : m = 0
    · subst hm0; exact hnq0 hQm
    · exact hmin m (Nat.pos_of_ne_zero hm0) hflt hQm
  · exfalso
    have := hfmin (scanPre cts b cts.length) hlt
    simp only [decide_eq_true_eq] at this
    exact this hQ
  · have hQm : m + 1 < cts.length ∧ cts.getD (m + 1) 0 > b := by
      simpa using hfp
    have hm0 : m ≠ 0 := by
      intro hm0; subst hm0; exact hnq0 hQm
    have hle1 : scanPre cts b cts.length ≤ m := by
      by_contra hcon
      push_neg at hcon
      exact hmin m (Nat.pos_of_ne_zero hm0) hcon hQm
    have hle2 : m ≤ scanPre cts b cts.length := by
      by_contra hcon
      push_neg at hcon
      have := hfmin (scanPre cts b cts.length) hcon
      simp only [decide_eq_true_eq] at this
      exact this hQ
    rw [hfs]
    simp only [Option.getD_some]
    omega

/-- C2 counterexample: during a tuning run with both budgets set to -1ns
(reachable, since New keeps negative Options values), the first index k
with k+1 in range and table[k+1] above the budget is k = 0, but the stored
costs are (1, 1): the first qualifying index is not kept. -/
theorem scan_drops_first_qualifying_zero :
    firstQual table0 (-1) = some 0 ∧
    tuneEffect meas0 ⟨-1, -1, 2⟩ ⟨0, 0⟩ = (⟨1, 1⟩, none) := by
  exact ⟨by decide, by decide⟩

/-- C2 (amended): for non-negative budgets — in particular any budget for
which a table built by a tuning run can make index 0 non-qualifying — the
scan stores, for each budget independently, exactly the first index k such
that k+1 is in range and table[k+1] exceeds that budget (0 when none
qualifies).  With a negative budget the qualifying index 0 collides with
the zero sentinel of the scan accumulator and the second qualifying index
is stored instead. -/
theorem scan_first_qualifying (meas : Nat → Except String Int) (cts : List Int)
    (q s : Int) (hok : buildTable meas = Except.ok cts)
    (hq : 0 ≤ q) (hs : 0 ≤ s) :
    scanCosts cts q s = ((firstQual cts q).getD 0, (firstQual cts s).getD 0) := by
  rw [scanCosts_eq, scanCost_eq_firstQual meas cts q hok hq,
    scanCost_eq_firstQual meas cts s hok hs]

/-- Witness for C2 at meas0 with budgets 100ms and 1000ms: the scan stores
(4, 8), the first qualifying indices. -/
theorem scan_first_qualifying_witness :
    buildTable meas0 = Except.ok table0 ∧
    (0 : Int) ≤ 100000000 ∧ (0 : Int) ≤ 1000000000 ∧
    scanCosts table0 100000000 1000000000 =
      ((firstQual table0 100000000).getD 0, (firstQual table0 1000000000).getD 0) := by
  have hok : buildTable meas0 = Except.ok table0 := by decide
  exact ⟨hok, by norm_num, by norm_num,
    scan_first_qualifying meas0 table0 100000000 1000000000 hok (by norm_num) (by norm_num)⟩

/-- C3: the code contradicts the claim.  With both budgets 2^62 ns (about
146 years — larger than every measured or extrapolated entry of the run
with meas0), the tuning run stores the zero sentinel in both costs and
signals nothing (second component none, and Go's Tune has no error
return), and the generation paths then hand cost 0 to
bcrypt.GenerateFromPassword: a zero cost is both silently kept and used. -/
theorem infeasible_budget_silent_zero :
    tuneEffect meas0 ⟨2 ^ 62, 2 ^ 62, 2⟩ ⟨0, 0⟩ = (⟨0, 0⟩, none) ∧
    genQuickCostUsed meas0 ⟨2 ^ 62, 2 ^ 62, 2⟩ ⟨0, 0⟩ = Except.ok 0 ∧
    genStrongCostUsed meas0 ⟨2 ^ 62, 2 ^ 62, 2⟩ ⟨0, 0⟩ = Except.ok 0 := by
  exact ⟨by decide, by decide, by decide⟩

/-- C4: after a successful tuning run whose budgets satisfy qMax <= sMax
and are both satisfiable by some index of the table, the stored pair
satisfies 0 < quickCost <= strongCost. -/
theorem tuned_pair_ordered (meas : Nat → Except String Int) (opts : Options)
    (st : BcState) (cts : List Int)
    (hok : buildTable meas = Except.ok cts)
    (hqs : opts.GenQuickMaxTime ≤ opts.GenStrongMaxTime)
    (hsatQ : ∃ k, k + 1 < cts.length ∧ cts.getD (k + 1) 0 > opts.GenQuickMaxTime)
    (hsatS : ∃ k, k + 1 < cts.length ∧ cts.getD (k + 1) 0 > opts.GenStrongMaxTime) :
    (tuneEffect meas opts st).2 = none ∧
    0 < (tuneEffect meas opts st).1.quickCost ∧
    (tuneEffect meas opts st).1.quickCost ≤ (tuneEffect meas opts st).1.strongCost := by
  obtain ⟨hL, h0, hSh⟩ := buildTable_shape meas cts hok
  have h1z : cts.getD 1 0 = 0 :=
    (hSh 1 (le_refl 1) (by simp only [maxCost]; omega)).1 (by simp only [minCost]; omega)
  have h2z : cts.getD 2 0 = 0 :=
    (hSh 2 (by omega) (by simp only [maxCost]; omega)).1 (by simp only [minCost]; omega)
  have hlen32 : 2 < cts.length := by simp only [maxCost] at hL; omega
  have hpoz : ∀ b : Int, (∃ k, k + 1 < cts.length ∧ cts.getD (k + 1) 0 > b) →
      ∃ k, 0 < k ∧ k + 1 < cts.length ∧ cts.getD (k + 1) 0 > b := by
    rintro b ⟨k, hklen, hkgt⟩
    rcases Nat.eq_zero_or_pos k with hk0 | hk0
    · subst hk0
      have h1gt : cts.getD 1 0 > b := hkgt
      rw [h1z] at h1gt
      refine ⟨1, one_pos, by omega, ?_⟩
      have h2e : cts.getD (1 + 1) 0 = 0 := h2z
      rw [h2e]
      exact h1gt
    · exact ⟨k, hk0, hklen, hkgt⟩
  have hscan : ∀ b : Int,
      (∃ k, 0 < k ∧ k + 1 < cts.length ∧ cts.getD (k + 1) 0 > b) →
      0 < scanCost cts b ∧
      (cts.length > scanCost cts b + 1 ∧ cts.getD (scanCost cts b + 1) 0 > b) ∧
      ∀ k, 0 < k → k < scanCost cts b →
        ¬(cts.length > k + 1 ∧ cts.getD (k + 1) 0 > b) := by
    rintro b ⟨k, hk0, hklen, hkgt⟩
    rw [scanCost_eq_pre]
    rcases scanPre_spec cts b cts.length with ⟨hz, hmin⟩ | ⟨hpos, hlt, hQ, hmin⟩
    · exact absurd ⟨hklen, hkgt⟩ (hmin k hk0 (by omega))
    · exact ⟨hpos, hQ, hmin⟩
  obtain ⟨hposq, hQq, hminq⟩ := hscan _ (hpoz _ hsatQ)
  obtain ⟨hposs, hQs, hmins⟩ := hscan _ (hpoz _ hsatS)
  have htune : tuneEffect meas opts st =
      (⟨scanCost cts opts.GenQuickMaxTime, scanCost cts opts.GenStrongMaxTime⟩,
        none) := by
    simp [tuneEffect, hok, scanCosts_eq]
  rw [htune]
  refine ⟨rfl, hposq, ?_⟩
  show scanCost cts opts.GenQuickMaxTime ≤ scanCost cts opts.GenStrongMaxTime
  by_contra hcon
  push_neg at hcon
  exact hminq _ hposs hcon ⟨hQs.1, lt_of_le_of_lt hqs hQs.2⟩

/-- Witness for C4 at meas0 with budgets 100ms and 1000ms: the run stores
the pair (4, 8), with 0 < 4 <= 8. -/
theorem tuned_pair_ordered_witness :
    buildTable meas0 = Except.ok table0 ∧
    (100000000 : Int) ≤ 1000000000 ∧
    (∃ k, k + 1 < table0.length ∧ table0.getD (k + 1) 0 > (100000000 : Int)) ∧
    (∃ k, k + 1 < table0.length ∧ table0.getD (k + 1) 0 > (1000000000 : Int)) ∧
    ((tuneEffect meas0 ⟨100000000, 1000000000, 2⟩ ⟨0, 0⟩).2 = none ∧
      0 < (tuneEffect meas0 ⟨100000000, 1000000000, 2⟩ ⟨0, 0⟩).1.quickCost ∧
      (tuneEffect meas0 ⟨100000000, 1000000000, 2⟩ ⟨0, 0⟩).1.quickCost ≤
        (tuneEffect meas0 ⟨100000000, 1000000000, 2⟩ ⟨0, 0⟩).1.strongCost) := by
  have hok : buildTable meas0 = Except.ok table0 := by decide
  have hs1 : ∃ k, k + 1 < table0.length ∧ table0.getD (k + 1) 0 > (100000000 : Int) :=
    ⟨4, by decide⟩
  have hs2 : ∃ k, k + 1 < table0.length ∧ table0.getD (k + 1) 0 > (1000000000 : Int) :=
    ⟨8, by decide⟩
  exact ⟨hok, by norm_num, hs1, hs2,
    tuned_pair_ordered meas0 ⟨100000000, 1000000000, 2⟩ ⟨0, 0⟩ table0 hok
      (by norm_num) hs1 hs2⟩

/-- C5: IsCostQuick (resp. IsCostStrong) is testHash at the current quick
(resp. strong) cost; testHash fails exactly when the hash is malformed
(the primitive's error, propagated verbatim) or its extracted cost is
below the threshold (the distinct ErrLowCost value); the two failure
outcomes are distinguishable; an extracted cost at or above the threshold
succeeds. -/
theorem is_cost_checks (pc : String → Except String Int)
    (meas : Nat → Except String Int) (opts : Options) (st : BcState)
    (hash : String) (cq cs : Nat) (stq sts : BcState)
    (hq : currentQuickCost meas opts st = Except.ok (cq, stq))
    (hs : currentStrongCost meas opts st = Except.ok (cs, sts)) :
    isCostQuick pc meas opts st hash = Except.ok (testHash pc hash cq) ∧
    isCostStrong pc meas opts st hash = Except.ok (testHash pc hash cs) ∧
    (∀ cost : Nat,
      (testHash pc hash cost = Except.ok () ↔
        ∃ v, pc hash = Except.ok v ∧ ¬ v < (cost : Int)) ∧
      (testHash pc hash cost = Except.error TErr.low ↔
        ∃ v, pc hash = Except.ok v ∧ v < (cost : Int)) ∧
      (∀ e, testHash pc hash cost = Except.error (TErr.primitive e) ↔
        pc hash = Except.error e)) ∧
    (∀ e, TErr.primitive e ≠ TErr.low) := by
  refine ⟨by simp [isCostQuick, hq], by simp [isCostStrong, hs], ?_,
    fun e h => by cases h⟩
  intro cost
  unfold testHash
  cases hpc : pc hash with
  | error e => simp
  | ok v =>
    by_cases hv : v < (cost : Int)
    · simp [hv]
    · simp [hv]
      omega

/-- Witness for C5 with the concrete oracle pc0 and a non-tuning state. -/
theorem is_cost_checks_witness :
    currentQuickCost meas0 ⟨1, 2, 3⟩ ⟨5, 7⟩ = Except.ok (5, ⟨5, 7⟩) ∧
    currentStrongCost meas0 ⟨1, 2, 3⟩ ⟨5, 7⟩ = Except.ok (7, ⟨5, 7⟩) ∧
    (isCostQuick pc0 meas0 ⟨1, 2, 3⟩ ⟨5, 7⟩ "hash10" =
        Except.ok (testHash pc0 "hash10" 5) ∧
      isCostStrong pc0 meas0 ⟨1, 2, 3⟩ ⟨5, 7⟩ "hash10" =
        Except.ok (testHash pc0 "hash10" 7) ∧
      (∀ cost : Nat,
        (testHash pc0 "hash10" cost = Except.ok () ↔
          ∃ v, pc0 "hash10" = Except.ok v ∧ ¬ v < (cost : Int)) ∧
        (testHash pc0 "hash10" cost = Except.error TErr.low ↔
          ∃ v, pc0 "hash10" = Except.ok v ∧ v < (cost : Int)) ∧
        (∀ e, testHash pc0 "hash10" cost = Except.error (TErr.primitive e) ↔
          pc0 "hash10" = Except.error e)) ∧
      (∀ e, TErr.primitive e ≠ TErr.low)) := by
  have hq : currentQuickCost meas0 ⟨1, 2, 3⟩ ⟨5, 7⟩ = Except.ok (5, ⟨5, 7⟩) := by decide
  have hs : currentStrongCost meas0 ⟨1, 2, 3⟩ ⟨5, 7⟩ = Except.ok (7, ⟨5, 7⟩) := by decide
  exact ⟨hq, hs, is_cost_checks pc0 meas0 ⟨1, 2, 3⟩ ⟨5, 7⟩ "hash10" 5 7 ⟨5, 7⟩ ⟨5, 7⟩ hq hs⟩

/-- C6 (modelled from the spec, since the ValidateHash implementation is
not under src/): validateHash reports exactly the cost-extraction error
when extraction fails, and succeeds for every hash whose cost the
primitive can extract, regardless of the cost value. -/
theorem validate_hash_characterization (pc : String → Except String Int)
    (hash : String) :
    (∀ e, validateHash pc hash = Except.error e ↔ pc hash = Except.error e) ∧
    (validateHash pc hash = Except.ok () ↔ ∃ c, pc hash = Except.ok c) := by
  unfold validateHash
  cases hpc : pc hash with
  | error e => simp
  | ok c => simp

/-- Witness for C6: pc0 accepts the hash of cost 10 and rejects the raw
password string testStr. -/
theorem validate_hash_characterization_witness :
    ((∀ e, validateHash pc0 "hash10" = Except.error e ↔
        pc0 "hash10" = Except.error e) ∧
      (validateHash pc0 "hash10" = Except.ok () ↔
        ∃ c, pc0 "hash10" = Except.ok c)) ∧
    validateHash pc0 "hash10" = Except.ok () ∧
    validateHash pc0 testStr = Except.error "malformed hash" := by
  exact ⟨validate_hash_characterization pc0 "hash10", by decide, by decide⟩

/-- C7 counterexample: the claim's route to a zero cost does not exist.
For every non-negative budget, no zero-valued entry below minCost can
satisfy the scan condition (the comparison is strict); and even for the
negative budget -1, where the zero entries do qualify, the tuning run
derives cost 1, not 0, because the qualifying index 0 collides with the
scan's zero sentinel. -/
theorem no_zero_cost_from_zero_entries :
    (¬ ∃ b : Int, 0 ≤ b ∧ ∃ j, j < minCost ∧ table0.getD j 0 > b) ∧
    scanCost table0 (-1) = 1 ∧
    tuneEffect meas0 ⟨-1, -1, 2⟩ ⟨0, 0⟩ = (⟨1, 1⟩, none) := by
  refine ⟨?_, by decide, by decide⟩
  rintro ⟨b, hb, j, hj, hgt⟩
  have hj4 : j < 4 := hj
  have hz : table0.getD j 0 = 0 := by
    interval_cases j <;> decide
  rw [hz] at hgt
  omega

/-- C7 (amended): for any negative latency budget, the zero-valued table
entry at index 1 (below minCost) satisfies the scan condition at k = 0,
and the tuning run's scan derives cost 1 — not 0 — which is still below
the primitive's valid minimum cost. -/
theorem zero_entry_negative_budget (meas : Nat → Except String Int)
    (cts : List Int) (b : Int)
    (hok : buildTable meas = Except.ok cts) (hb : b < 0) :
    (cts.getD 1 0 = 0 ∧ 1 < minCost ∧ 0 + 1 < cts.length ∧
      cts.getD (0 + 1) 0 > b) ∧
    scanCost cts b = 1 ∧ 1 < minCost := by
  obtain ⟨hL, h0, hSh⟩ := buildTable_shape meas cts hok
  have h1z : cts.getD 1 0 = 0 :=
    (hSh 1 (le_refl 1) (by simp only [maxCost]; omega)).1 (by simp only [minCost]; omega)
  have h2z : cts.getD 2 0 = 0 :=
    (hSh 2 (by omega) (by simp only [maxCost]; omega)).1 (by simp only [minCost]; omega)
  have hlen32 : 2 < cts.length := by simp only [maxCost] at hL; omega
  have hq1 : cts.length > 1 + 1 ∧ cts.getD (1 + 1) 0 > b := by
    constructor
    · omega
    · have h2e : cts.getD (1 + 1) 0 = 0 := h2z
      rw [h2e]; omega
  refine ⟨⟨h1z, by simp only [minCost]; omega, by omega, ?_⟩, ?_, by simp only [minCost]; omega⟩
  · have h1e : cts.getD (0 + 1) 0 = 0 := h1z
    rw [h1e]; omega
  · rw [scanCost_eq_pre]
    rcases scanPre_spec cts b cts.length with ⟨hz, hmin⟩ | ⟨hpos, hlt, hQ, hmin⟩
    · exact absurd hq1 (hmin 1 one_pos (by omega))
    · by_cases hgt1 : 1 < scanPre cts b cts.length
      · exact absurd hq1 (hmin 1 one_pos hgt1)
      · omega

/-- Witness for C7 (amended) at meas0 with budget -1. -/
theorem zero_entry_negative_budget_witness :
    buildTable meas0 = Except.ok table0 ∧ (-1 : Int) < 0 ∧
    ((table0.getD 1 0 = 0 ∧ 1 < minCost ∧ 0 + 1 < table0.length ∧
        table0.getD (0 + 1) 0 > (-1 : Int)) ∧
      scanCost table0 (-1) = 1 ∧ 1 < minCost) := by
  have hok : buildTable meas0 = Except.ok table0 := by decide
  exact ⟨hok, by norm_num, zero_entry_negative_budget meas0 table0 (-1) hok (by norm_num)⟩

/-- C8: whenever the table build of a tuning run fails — at any loop
position, also after earlier successful measurements — the whole run
aborts and the protected pair keeps the values it had before the run
started; moreover every such failure is a hashing-primitive failure at a
directly measured cost in [minCost, maxCost], whose error is propagated
verbatim. -/
theorem tuning_measurement_failure_aborts (meas : Nat → Except String Int)
    (opts : Options) (st : BcState) (e : String)
    (he : buildTable meas = Except.error e) :
    tuneEffect meas opts st = (st, some e) ∧
    ∃ j, minCost ≤ j ∧ j ≤ maxCost ∧ meas j = Except.error e := by
  exact ⟨by simp [tuneEffect, he], buildTable_err meas e he⟩

/-- Witness for C8 with the oracle measMixed, which measures costs 4 and 5
successfully and fails at cost 6 — a failure in the middle of the loop,
after earlier successful measurements; the previously tuned state (3, 9)
is retained. -/
theorem tuning_measurement_failure_aborts_witness :
    buildTable measMixed = Except.error "bcrypt failure" ∧
    measMixed 4 = Except.ok 1000000 ∧ measMixed 5 = Except.ok 1000000 ∧
    (tuneEffect measMixed ⟨500000000, 2000000000, 2⟩ ⟨3, 9⟩ =
        (⟨3, 9⟩, some "bcrypt failure") ∧
      ∃ j, minCost ≤ j ∧ j ≤ maxCost ∧
        measMixed j = Except.error "bcrypt failure") := by
  have he : buildTable measMixed = Except.error "bcrypt failure" := by decide
  exact ⟨he, by decide, by decide,
    tuning_measurement_failure_aborts measMixed ⟨500000000, 2000000000, 2⟩
      ⟨3, 9⟩ "bcrypt failure" he⟩

/-- C10: for a non-nil Options pointer p, New writes the defaults for the
zero fields (500ms, 2000ms, 2) through p into the caller's own object —
leaving non-zero fields unchanged — the returned Bcrypter's Options field
aliases that same object, and no other heap object is touched. -/
theorem new_mutates_caller_options (h : Nat → Options) (p fr : Nat) :
    (newGo h (some p) fr).2.optionsPtr = p ∧
    (newGo h (some p) fr).1 p = setDefaults (h p) ∧
    ((newGo h (some p) fr).1 p).GenQuickMaxTime =
      (if (h p).GenQuickMaxTime = 0 then GenQuickMaxTime
        else (h p).GenQuickMaxTime) ∧
    ((newGo h (some p) fr).1 p).GenStrongMaxTime =
      (if (h p).GenStrongMaxTime = 0 then GenStrongMaxTime
        else (h p).GenStrongMaxTime) ∧
    ((newGo h (some p) fr).1 p).GenConcurrency =
      (if (h p).GenConcurrency = 0 then GenConcurrency
        else (h p).GenConcurrency) ∧
    (∀ q, q ≠ p → (newGo h (some p) fr).1 q = h q) := by
  have hfields : ∀ o : Options,
      (setDefaults o).GenQuickMaxTime =
        (if o.GenQuickMaxTime = 0 then GenQuickMaxTime else o.GenQuickMaxTime) ∧
      (setDefaults o).GenStrongMaxTime =
        (if o.GenStrongMaxTime = 0 then GenStrongMaxTime else o.GenStrongMaxTime) ∧
      (setDefaults o).GenConcurrency =
        (if o.GenConcurrency = 0 then GenConcurrency else o.GenConcurrency) := by
    intro o
    by_cases h1 : o.GenQuickMaxTime = 0 <;> by_cases h2 : o.GenStrongMaxTime = 0 <;>
      by_cases h3 : o.GenConcurrency = 0 <;> simp [setDefaults, h1, h2, h3]
  have hupd : (newGo h (some p) fr).1 p = setDefaults (h p) := by
    simp [newGo, Function.update_same]
  refine ⟨rfl, hupd, ?_, ?_, ?_, ?_⟩
  · rw [hupd]; exact (hfields (h p)).1
  · rw [hupd]; exact (hfields (h p)).2.1
  · rw [hupd]; exact (hfields (h p)).2.2
  · intro q hq
    simp [newGo, Function.update_noteq hq]

/-- Witness for C10 at the concrete heap heap0 (quick budget and
concurrency zero, strong budget 7): the object at pointer 0 becomes
(500000000, 7, 2), pointer 5 is untouched, and the Bcrypter aliases
pointer 0. -/
theorem new_mutates_caller_options_witness :
    (newGo heap0 (some 0) 1).2.optionsPtr = 0 ∧
    (newGo heap0 (some 0) 1).1 0 = ⟨500000000, 7, 2⟩ ∧
    (newGo heap0 (some 0) 1).1 5 = heap0 5 := by
  exact ⟨(new_mutates_caller_options heap0 0 1).1, by decide,
    (new_mutates_caller_options heap0 0 1).2.2.2.2.2 5 (by norm_num)⟩
